import Mathlib

/-!
Verification of the Aurora_QA question-answering engine
(`app/qa_engine.py`) against its specification.

The engine is embedded shallowly: Python strings become `String`
(scanned as `List Char`), `Optional[T]` becomes `Option T`, and the
regular expressions of the source are translated into explicit
left-to-right scanning functions with the same leftmost-match
semantics.  Python's Unicode-aware character classes (`\w`, `\s`,
`\d`, `str.lower`, `str.isupper`) are modelled by their ASCII
fragments, which coincide with Python on all ASCII text.  difflib's
float `ratio()` is modelled as the exact rational it approximates.
All definitions are executable and kernel-reducible so concrete runs
of the engine can be checked by `decide`.
-/

/-- The apostrophe character (code point 39), used by the possessive
pattern `\b([A-Za-z]+)'s\b` of `extract_requested_first_name`. -/
def apos : Char := Char.ofNat 39

/-- ASCII fragment of Python's regex class `\s` (and of `str.strip`):
space, tab, newline, carriage return, vertical tab, form feed. -/
def pyIsSpace (c : Char) : Bool :=
  c == ' ' || c == Char.ofNat 9 || c == Char.ofNat 10 || c == Char.ofNat 13 ||
  c == Char.ofNat 11 || c == Char.ofNat 12

/-- ASCII fragment of Python's regex class `\w`: letters, digits and
underscore.  Word boundaries `\b` of the source's patterns are decided
with this class. -/
def isWordChar (c : Char) : Bool :=
  c.isAlpha || c.isDigit || c == '_'

/-- A regex `\b` holds just before a word character when the previous
character (if any) is not a word character. -/
def boundaryOK : Option Char → Bool
  | none => true
  | some p => !(isWordChar p)

/-- ASCII fragment of Python's `str.lower` on a character list. -/
def lowerChars (l : List Char) : List Char := l.map Char.toLower

/-- `question.lower()` etc.: ASCII fragment of Python's `str.lower`. -/
def pyLower (s : String) : String := String.mk (lowerChars s.data)

/-- Bool test that `needle` occurs as a contiguous infix of `hay`,
i.e. Python's `needle in hay` on strings (over char lists). -/
def infixOfB (needle : List Char) : List Char → Bool
  | [] => needle.isEmpty
  | c :: rest => needle.isPrefixOf (c :: rest) || infixOfB needle rest

/-- Python's substring operator `needle in hay`. -/
def containsSub (hay needle : String) : Bool := infixOfB needle.data hay.data

/-- Maximal runs of characters satisfying `p`, left to right; the
accumulator carries the current run reversed.  `runs Char.isAlpha`
is `re.findall(r"[a-zA-Z]+", ...)`; `runs (fun c => !(pyIsSpace c))`
is Python's `str.split()`. -/
def runsAux (p : Char → Bool) (acc : List Char) : List Char → List (List Char)
  | [] => if acc.isEmpty then [] else [acc.reverse]
  | c :: cs =>
    if p c then runsAux p (c :: acc) cs
    else if acc.isEmpty then runsAux p [] cs
    else acc.reverse :: runsAux p [] cs

/-- Maximal runs of characters satisfying `p`. -/
def runs (p : Char → Bool) (l : List Char) : List (List Char) := runsAux p [] l

/-- Python's `str.split()` (split on whitespace runs, dropping empties). -/
def splitWsList (l : List Char) : List (List Char) := runs (fun c => !(pyIsSpace c)) l

/-- `re.findall(r"[a-zA-Z]+", question.lower())` — the word tokens of
the lower-cased question used by the member resolver. -/
def questionTokens (question : String) : List String :=
  (runs Char.isAlpha (pyLower question).data).map String.mk

/-- The internal message entity of `app/models.py` (`MemberMessage`).
`created_at` is never consulted by the engine; its timestamp payload is
modelled as an opaque string. -/
structure MemberMessage where
  member_id : Option String
  member_name : Option String
  text : String
  created_at : Option String
deriving DecidableEq

/-- `{m.member_name for m in messages if m.member_name}`: the distinct
truthy (non-`None`, non-empty) member names.  Python's set iteration
order is arbitrary; the embedding fixes the deterministic order given
by `List.dedup`. -/
def distinctNames (messages : List MemberMessage) : List String :=
  (messages.filterMap (fun m =>
    match m.member_name with
    | some n => if n = "" then none else some n
    | none => none)).dedup

/-- `msg_counts.get(name, 0)`: the number of messages whose truthy
`member_name` equals `name` (the per-member counts dict of
`find_member_name_in_question`). -/
def msgCount (messages : List MemberMessage) (name : String) : Nat :=
  (messages.filter (fun m =>
    match m.member_name with
    | some n => !(n == "") && (n == name)
    | none => false)).length

/-- Insert a name into a list kept in non-increasing length order,
after all names of greater or equal length (stable descending
insertion). -/
def insertByLen (name : String) : List String → List String
  | [] => [name]
  | m :: ms => if name.length ≤ m.length then m :: insertByLen name ms else name :: m :: ms

/-- `sorted(unique_names, key=len, reverse=True)`: the candidate names
in non-increasing length order (ties kept stable in list order; the
source's order among equal-length names is an arbitrary set order). -/
def sortNamesByLen : List String → List String
  | [] => []
  | n :: ns => insertByLen n (sortNamesByLen ns)

/-- The names of `unique_names` whose first whitespace-separated part,
lower-cased, equals `token` — the entry `by_first[token]` of the
resolver's first-name map (empty list when `token not in by_first`). -/
def firstNameCandidates (names : List String) (token : String) : List String :=
  names.filter (fun name =>
    match splitWsList name.data with
    | [] => false
    | p :: _ => String.mk (lowerChars p) == token)

/-- Step 2a of the resolver: the first question token whose first-name
entry holds exactly one full name yields that name. -/
def uniqueFirstNameMatch (names : List String) (tokens : List String) : Option String :=
  tokens.findSome? (fun t =>
    match firstNameCandidates names t with
    | [c] => some c
    | _ => none)

/-- Step 2b of the resolver, candidate enumeration: for each token with
more than one first-name candidate, all its candidates, in token order
then entry order. -/
def ambigCandidates (names : List String) (tokens : List String) : List String :=
  tokens.flatMap (fun t =>
    if (firstNameCandidates names t).length > 1 then firstNameCandidates names t else [])

/-- Left fold keeping the first element whose score strictly exceeds
every score seen so far (the `if score > best_score` update loop used
by steps 2b and by the fuzzy suggester; `lt` is the Bool comparison on
scores, `sc x = none` when the source's loop skips `x`). -/
def bestScan {α β : Type} (sc : α → Option β) (lt : β → β → Bool) :
    List α → Option α × β → Option α × β
  | [], b => b
  | x :: l, b =>
    match sc x with
    | none => bestScan sc lt l b
    | some s => if lt b.2 s then bestScan sc lt l (some x, s) else bestScan sc lt l b

/-- Step 2b of the resolver: among the ambiguous candidates, the first
one attaining the strictly highest message count (`best_name`), or
`none` when no candidate's count exceeds the initial score 0. -/
def pickMostMessages (messages : List MemberMessage) (candidates : List String) : Option String :=
  (bestScan (fun name => some (msgCount messages name)) Nat.blt candidates (none, 0)).1

/-- `find_member_name_in_question(question, messages)`: strict member
resolution — (1) longest-first full-name substring match, (2) unique
first-name token match, (2b) ambiguous first-name match by highest
message count. -/
def find_member_name_in_question (question : String) (messages : List MemberMessage) :
    Option String :=
  if messages.isEmpty then none
  else
    match (sortNamesByLen (distinctNames messages)).find? (fun name =>
        !(name == "") && containsSub (pyLower question) (pyLower name)) with
    | some name => some name
    | none =>
      match uniqueFirstNameMatch (distinctNames messages) (questionTokens question) with
      | some name => some name
      | none => pickMostMessages messages (ambigCandidates (distinctNames messages) (questionTokens question))

/-- Scan for the possessive pattern `\b([A-Za-z]+)'s\b` (leftmost
match), returning the captured alphabetic run; `prev` is the character
before the current position, for the word boundary. -/
def possAux : Option Char → List Char → Option (List Char)
  | _, [] => none
  | prev, c :: cs =>
    if c.isAlpha && boundaryOK prev then
      match (c :: cs).dropWhile Char.isAlpha with
      | a :: s :: rest2 =>
        if a == apos && s == 's' &&
            (match rest2 with | [] => true | d :: _ => !(isWordChar d)) then
          some ((c :: cs).takeWhile Char.isAlpha)
        else possAux (some c) cs
      | _ => possAux (some c) cs
    else possAux (some c) cs

/-- `extract_requested_first_name(question)`: the possessive pattern
first, else the first capitalized token after position 0, stripped of
non-word characters. -/
def extract_requested_first_name (question : String) : Option String :=
  match possAux none question.data with
  | some run => some (String.mk run)
  | none =>
    ((splitWsList question.data).drop 1).findSome? (fun tok =>
      match tok with
      | [] => none
      | c :: _ =>
        if c.isUpper then
          let cleaned := tok.filter isWordChar
          if cleaned.isEmpty then none else some (String.mk cleaned)
        else none)

/-- Length of the longest common prefix of two character lists. -/
def commonPrefixLen : List Char → List Char → Nat
  | a :: as, b :: bs => if a == b then commonPrefixLen as bs + 1 else 0
  | _, _ => 0

/-- difflib `SequenceMatcher.find_longest_match` (no junk, as for the
short strings the engine compares): the longest matching block
`(i, j, size)` between `a` and `b`, ties resolved to the earliest start
in `a`, then the earliest start in `b`; `(0, 0, 0)` when nothing
matches. -/
def findLongestMatch (a b : List Char) : Nat × Nat × Nat :=
  (List.range a.length).foldl (fun best i =>
    (List.range b.length).foldl (fun best j =>
      let k := commonPrefixLen (a.drop i) (b.drop j)
      if k > best.2.2 then (i, j, k) else best) best) (0, 0, 0)

/-- Total size of difflib's matching blocks, by the recursive
divide-at-the-longest-match rule, with a fuel argument for structural
recursion.  Each recursive call strictly shrinks the first list, so
`a.length + 1` fuel (as supplied by `matchingTotal`) never runs out. -/
def matchingTotalFuel : Nat → List Char → List Char → Nat
  | 0, _, _ => 0
  | fuel + 1, a, b =>
    let m := findLongestMatch a b
    if m.2.2 = 0 then 0
    else
      matchingTotalFuel fuel (a.take m.1) (b.take m.2.1) + m.2.2 +
      matchingTotalFuel fuel (a.drop (m.1 + m.2.2)) (b.drop (m.2.1 + m.2.2))

/-- The total matched size `M` underlying `SequenceMatcher.ratio()`. -/
def matchingTotal (a b : List Char) : Nat := matchingTotalFuel (a.length + 1) a b

/-- `SequenceMatcher(None, a, b).ratio()`: `2*M / (len(a)+len(b))` as
an exact rational (difflib computes the same quantity in floating
point; `1` when both strings are empty). -/
def ratioQ (a b : List Char) : ℚ :=
  if a.length + b.length = 0 then 1
  else mkRat (2 * matchingTotal a b) (a.length + b.length)

/-- The similarity the suggester assigns to a candidate full name:
`ratio(requested, parts[0].lower())` for the name's first
whitespace-separated part, or `none` when the name has no parts (the
loop's `continue`). -/
def first_name_ratio (requested : List Char) (full_name : String) : Option ℚ :=
  match splitWsList full_name.data with
  | [] => none
  | p :: _ => some (ratioQ requested (lowerChars p))

/-- `suggest_similar_member_by_first_name(requested, messages)`: the
first candidate attaining the strictly highest first-name similarity,
returned when that similarity reaches `min_similarity = 0.80 = 4/5`. -/
def suggest_similar_member_by_first_name (requested_first_name : String)
    (messages : List MemberMessage) : Option String :=
  match bestScan (first_name_ratio (lowerChars requested_first_name.data)) Rat.blt
      (distinctNames messages) (none, 0) with
  | (some full_name, best_ratio) =>
    if mkRat 4 5 ≤ best_ratio then some full_name else none
  | (none, _) => none

/-- `filter_messages_for_member(messages, member_name)`. -/
def filter_messages_for_member (messages : List MemberMessage) (member_name : String) :
    List MemberMessage :=
  messages.filter (fun m => m.member_name == some member_name)

/-- `detect_question_type(question)`: keyword classifier on the
lower-cased question, first matching rule wins. -/
def detect_question_type (question : String) : String :=
  if containsSub (pyLower question) "how many" && containsSub (pyLower question) "car" then
    "car_count"
  else if containsSub (pyLower question) "favorite" && containsSub (pyLower question) "restaurant" then
    "favorite_restaurants"
  else if containsSub (pyLower question) "when" && containsSub (pyLower question) "trip" then
    "trip_when"
  else "generic"

/-- Numeric value of an ASCII digit run (Python's `int` on the
captured group; on ASCII digits the `ValueError` branch of the source
is unreachable). -/
def digitsVal (ds : List Char) : Nat :=
  ds.foldl (fun acc c => acc * 10 + (c.toNat - 48)) 0

/-- The body of `\b(\d+)\s+car` after the leading digit at the current
position: past the maximal digit run there must be a nonempty
whitespace run and then the literal `car`. -/
def carMatchAt (l : List Char) : Bool :=
  !((l.dropWhile Char.isDigit).takeWhile pyIsSpace).isEmpty &&
  ['c', 'a', 'r'].isPrefixOf ((l.dropWhile Char.isDigit).dropWhile pyIsSpace)

/-- Leftmost match of `\b(\d+)\s+car` (the pattern of
`extract_car_count_from_text`, applied to the lower-cased text):
at each position with a word boundary, take the maximal digit run,
then a nonempty maximal whitespace run, then require the literal
`car`; `prev` is the character before the current position. -/
def carCountSearch : Option Char → List Char → Option Nat
  | _, [] => none
  | prev, c :: cs =>
    if c.isDigit && boundaryOK prev then
      if carMatchAt (c :: cs) then some (digitsVal ((c :: cs).takeWhile Char.isDigit))
      else carCountSearch (some c) cs
    else carCountSearch (some c) cs

/-- `extract_car_count_from_text(text)`. -/
def extract_car_count_from_text (text : String) : Option Nat :=
  carCountSearch none (lowerChars text.data)

/-- `answer_car_count(member_name, messages)`: scan from newest to
oldest for the first message yielding a count. -/
def answer_car_count (member_name : String) (messages : List MemberMessage) : String :=
  match messages.reverse.findSome? (fun msg => extract_car_count_from_text msg.text) with
  | some count =>
    member_name ++ " has " ++ toString count ++ " car" ++
    (if count != 1 then "s" else "") ++ "."
  | none => "I couldn't find how many cars " ++ member_name ++ " has in their messages."

/-- Characters admitted by the destination capture class `[A-Za-z ]`. -/
def isDestChar (c : Char) : Bool := c.isAlpha || c == ' '

/-- The literal `trip to ` (with trailing space), lower-cased. -/
def tripToPat : List Char := ['t', 'r', 'i', 'p', ' ', 't', 'o', ' ']

/-- Leftmost match of `trip to ([A-Za-z ]+)\??` (case-insensitive, the
pattern of `extract_destination_from_question`): the first position
where the lower-cased text continues with `trip to ` followed by at
least one `[A-Za-z ]` character; the capture is the maximal such run
of the original text. -/
def tripToSearch : List Char → Option (List Char)
  | [] => none
  | c :: cs =>
    if tripToPat.isPrefixOf (lowerChars (c :: cs)) then
      let cap := ((c :: cs).drop 8).takeWhile isDestChar
      if cap.isEmpty then tripToSearch cs else some cap
    else tripToSearch cs

/-- Python's `str.strip()` restricted to the whitespace that can occur
here. -/
def stripChars (l : List Char) : List Char :=
  ((l.dropWhile pyIsSpace).reverse.dropWhile pyIsSpace).reverse

/-- `extract_destination_from_question(question)`. -/
def extract_destination_from_question (question : String) : Option String :=
  match tripToSearch question.data with
  | some cap => some (String.mk (stripChars cap))
  | none => none

/-- The alternatives of the source's `MONTH_PATTERN` month group, in
the regex's backtracking order: alternation order of the source, each
optional-suffix alternative longest first. -/
def monthCandidates : List (List Char) :=
  ["January".data, "Jan".data, "February".data, "Feb".data, "March".data, "Mar".data,
   "April".data, "Apr".data, "May".data, "June".data, "Jun".data, "July".data, "Jul".data,
   "August".data, "Aug".data, "September".data, "Sept".data, "Sep".data,
   "October".data, "Oct".data, "November".data, "Nov".data, "December".data, "Dec".data]

/-- The tail `\s+\d{1,2}(?:st|nd|rd|th)?(?:,\s*\d{4})?` of
`MONTH_PATTERN`, matched greedily after a month name; returns the
consumed characters. -/
def dateTail (rest : List Char) : Option (List Char) :=
  let ws := rest.takeWhile pyIsSpace
  if ws.isEmpty then none
  else
    let r1 := rest.dropWhile pyIsSpace
    let ds := r1.takeWhile Char.isDigit
    if ds.isEmpty then none
    else
      let dd := ds.take 2
      let r2 := r1.drop dd.length
      let ord :=
        if ['s', 't'].isPrefixOf r2 then ['s', 't']
        else if ['n', 'd'].isPrefixOf r2 then ['n', 'd']
        else if ['r', 'd'].isPrefixOf r2 then ['r', 'd']
        else if ['t', 'h'].isPrefixOf r2 then ['t', 'h']
        else []
      let r3 := r2.drop ord.length
      let yr :=
        match r3 with
        | c :: r4 =>
          if c == ',' then
            let ys := (r4.dropWhile pyIsSpace).takeWhile Char.isDigit
            if 4 ≤ ys.length then (c :: r4.takeWhile pyIsSpace) ++ ys.take 4 else []
          else []
        | [] => []
      some (ws ++ dd ++ ord ++ yr)

/-- Leftmost match of `MONTH_PATTERN` (case-sensitive, on the raw
text): at each word boundary try the month alternatives in
backtracking order, then the day/year tail; returns the whole match
(`group(0)`). -/
def monthSearch : Option Char → List Char → Option (List Char)
  | _, [] => none
  | prev, c :: cs =>
    if boundaryOK prev then
      match monthCandidates.findSome? (fun mc =>
        if mc.isPrefixOf (c :: cs) then
          match dateTail ((c :: cs).drop mc.length) with
          | some t => some (mc ++ t)
          | none => none
        else none) with
      | some g => some g
      | none => monthSearch (some c) cs
    else monthSearch (some c) cs

/-- Match of `\b\d{1,2}/\d{1,2}/\d{2,4}\b` (`DATE_SLASH_PATTERN`) at
the current position: each digit run must be maximal with the stated
length bounds, and a word character may not follow the final run. -/
def slashMatchAt (l : List Char) : Option (List Char) :=
  let r1 := l.takeWhile Char.isDigit
  if r1.isEmpty || 2 < r1.length then none
  else
    match l.drop r1.length with
    | c1 :: l2 =>
      if c1 == '/' then
        let r2 := l2.takeWhile Char.isDigit
        if r2.isEmpty || 2 < r2.length then none
        else
          match l2.drop r2.length with
          | c2 :: l3 =>
            if c2 == '/' then
              let r3 := l3.takeWhile Char.isDigit
              if r3.length < 2 || 4 < r3.length then none
              else
                match l3.drop r3.length with
                | [] => some (r1 ++ c1 :: r2 ++ c2 :: r3)
                | d :: _ => if isWordChar d then none else some (r1 ++ c1 :: r2 ++ c2 :: r3)
            else none
          | [] => none
      else none
    | [] => none

/-- Leftmost match of `DATE_SLASH_PATTERN` on the raw text. -/
def slashSearch : Option Char → List Char → Option (List Char)
  | _, [] => none
  | prev, c :: cs =>
    if boundaryOK prev then
      match slashMatchAt (c :: cs) with
      | some g => some g
      | none => slashSearch (some c) cs
    else slashSearch (some c) cs

/-- `extract_date_phrase(text)`: the month pattern first, then the
slash pattern. -/
def extract_date_phrase (text : String) : Option String :=
  match monthSearch none text.data with
  | some g => some (String.mk g)
  | none =>
    match slashSearch none text.data with
    | some g => some (String.mk g)
    | none => none

/-- `answer_trip_when(question, member_name, messages)`.  Python treats
an extracted empty-string destination as falsy, hence the `getD ""`
plus emptiness test. -/
def answer_trip_when (question : String) (member_name : String)
    (messages : List MemberMessage) : String :=
  let destination := (extract_destination_from_question question).getD ""
  if destination == "" then
    match (messages.filter (fun m => containsSub (pyLower m.text) "trip")).getLast? with
    | none => "I couldn't find any trip details for " ++ member_name ++ "."
    | some latest =>
      match extract_date_phrase latest.text with
      | some date_phrase => member_name ++ " seems to be planning a trip around " ++ date_phrase ++ "."
      | none => latest.text
  else
    match (messages.filter (fun m =>
        containsSub (pyLower m.text) (pyLower destination))).getLast? with
    | none =>
      "I couldn't find any messages from " ++ member_name ++ " about a trip to " ++ destination ++ "."
    | some latest =>
      match extract_date_phrase latest.text with
      | some date_phrase =>
        member_name ++ " is planning their trip to " ++ destination ++ " around " ++ date_phrase ++ "."
      | none => latest.text

/-- `answer_favorite_restaurants(member_name, messages)`. -/
def answer_favorite_restaurants (member_name : String) (messages : List MemberMessage) : String :=
  match (messages.filter (fun msg =>
      containsSub (pyLower msg.text) "favorite" && containsSub (pyLower msg.text) "restaurant")).map
      (fun msg => msg.text) with
  | [] => "I couldn't find any messages about " ++ member_name ++ "'s favorite restaurants."
  | [c] => c
  | cs => member_name ++ "'s messages about favorite restaurants: " ++ String.intercalate " | " cs

/-- The core answer of `answer_question_baseline` after resolution:
dispatch on the detected question type (the generic branch returns the
text of the member's latest message, supplied as `latest_msg`). -/
def core_answer_for (question member_name : String) (member_msgs : List MemberMessage)
    (latest_msg : MemberMessage) : String :=
  if detect_question_type question == "car_count" then
    answer_car_count member_name member_msgs
  else if detect_question_type question == "trip_when" then
    answer_trip_when question member_name member_msgs
  else if detect_question_type question == "favorite_restaurants" then
    answer_favorite_restaurants member_name member_msgs
  else latest_msg.text

/-- The fuzzy suggestion computed by `answer_question_baseline`:
attempted only when strict resolution failed and a requested first
name was extracted. -/
def suggested_for (question : String) (messages : List MemberMessage) : Option String :=
  match find_member_name_in_question question messages, extract_requested_first_name question with
  | none, some requested => suggest_similar_member_by_first_name requested messages
  | _, _ => none

/-- The member adopted by the orchestrator: the strict resolution if
it succeeded, else the fuzzy suggestion. -/
def resolve_member_combined (question : String) (messages : List MemberMessage) : Option String :=
  (find_member_name_in_question question messages).orElse (fun _ => suggested_for question messages)

/-- `answer_question_baseline(question, messages)`: the main QA
function of the `/ask` endpoint. -/
def answer_question_baseline (question : String) (messages : List MemberMessage) : String :=
  if messages.isEmpty then "I couldn't retrieve any member messages."
  else
    match resolve_member_combined question messages with
    | none => "I couldn't identify which member the question is about."
    | some member_name =>
      match (filter_messages_for_member messages member_name).getLast? with
      | none => "I couldn't find any messages for " ++ member_name ++ "."
      | some latest_msg =>
        match suggested_for question messages, extract_requested_first_name question with
        | some s_name, some r_name =>
          "I couldn't find any member named " ++ r_name ++ ", but I did find " ++ s_name ++
          ". Here is what their messages say:\n\n" ++
          core_answer_for question member_name (filter_messages_for_member messages member_name) latest_msg
        | _, _ =>
          core_answer_for question member_name (filter_messages_for_member messages member_name) latest_msg

/-- `answer_question_baseline` with the `"I couldn't find any messages
for {name}"` branch cut out (it returns the empty string instead):
used to state that the branch is unreachable. -/
def answer_question_no_empty_member_branch (question : String) (messages : List MemberMessage) :
    String :=
  if messages.isEmpty then "I couldn't retrieve any member messages."
  else
    match resolve_member_combined question messages with
    | none => "I couldn't identify which member the question is about."
    | some member_name =>
      match (filter_messages_for_member messages member_name).getLast? with
      | none => ""
      | some latest_msg =>
        match suggested_for question messages, extract_requested_first_name question with
        | some s_name, some r_name =>
          "I couldn't find any member named " ++ r_name ++ ", but I did find " ++ s_name ++
          ". Here is what their messages say:\n\n" ++
          core_answer_for question member_name (filter_messages_for_member messages member_name) latest_msg
        | _, _ =>
          core_answer_for question member_name (filter_messages_for_member messages member_name) latest_msg

/-! ### Support lemmas about the fold that keeps the first strict maximum -/

theorem natBlt_true {a b : ℕ} : Nat.blt a b = true ↔ a < b := by
  simp [Nat.blt_eq]

theorem ratBlt_true {a b : ℚ} : Rat.blt a b = true ↔ a < b := Iff.rfl

theorem bestScan_keep {α β : Type} (sc : α → Option β) (lt : β → β → Bool)
    {l : List α} {b : Option α × β}
    (h : ∀ x ∈ l, ∀ s, sc x = some s → lt b.2 s = false) :
    bestScan sc lt l b = b := by
  induction l with
  | nil => rfl
  | cons x l ih =>
    cases hsc : sc x with
    | none =>
      simp only [bestScan, hsc]
      exact ih (fun y hy s hs => h y (List.mem_cons_of_mem _ hy) s hs)
    | some s =>
      simp only [bestScan, hsc, h x (List.mem_cons_self x l) s hsc, Bool.false_eq_true, if_false]
      exact ih (fun y hy t ht => h y (List.mem_cons_of_mem _ hy) t ht)

theorem bestScan_snd_le {α β : Type} [LinearOrder β] (sc : α → Option β) (lt : β → β → Bool)
    (hlt : ∀ a b : β, lt a b = true ↔ a < b) {l : List α} {b : Option α × β} :
    b.2 ≤ (bestScan sc lt l b).2 := by
  induction l generalizing b with
  | nil => exact le_rfl
  | cons x l ih =>
    cases hsc : sc x with
    | none => simp only [bestScan, hsc]; exact ih
    | some s =>
      by_cases hb : lt b.2 s = true
      · simp only [bestScan, hsc, hb, if_true]
        exact le_trans (le_of_lt ((hlt _ _).mp hb)) (ih (b := (some x, s)))
      · rw [Bool.not_eq_true] at hb
        simp only [bestScan, hsc, hb, Bool.false_eq_true, if_false]
        exact ih

theorem bestScan_ub {α β : Type} [LinearOrder β] (sc : α → Option β) (lt : β → β → Bool)
    (hlt : ∀ a b : β, lt a b = true ↔ a < b) {l : List α} {b : Option α × β} :
    ∀ x ∈ l, ∀ t, sc x = some t → t ≤ (bestScan sc lt l b).2 := by
  induction l generalizing b with
  | nil => intro x hx; exact absurd hx (List.not_mem_nil x)
  | cons y l ih =>
    intro x hx t ht
    rcases List.mem_cons.mp hx with hxy | hxl
    · subst hxy
      by_cases hb : lt b.2 t = true
      · simp only [bestScan, ht, hb, if_true]
        exact bestScan_snd_le sc lt hlt (b := (some x, t))
      · rw [Bool.not_eq_true] at hb
        simp only [bestScan, ht, hb, Bool.false_eq_true, if_false]
        have hle : t ≤ b.2 := by
          by_contra hcon
          exact absurd ((hlt _ _).mpr (lt_of_not_le hcon)) (by simp [hb])
        exact le_trans hle (bestScan_snd_le sc lt hlt)
    · cases hsc : sc y with
      | none => simp only [bestScan, hsc]; exact ih x hxl t ht
      | some s =>
        by_cases hb : lt b.2 s = true
        · simp only [bestScan, hsc, hb, if_true]
          exact ih x hxl t ht
        · rw [Bool.not_eq_true] at hb
          simp only [bestScan, hsc, hb, Bool.false_eq_true, if_false]
          exact ih x hxl t ht

theorem bestScan_cases {α β : Type} (sc : α → Option β) (lt : β → β → Bool)
    {l : List α} {b : Option α × β} :
    bestScan sc lt l b = b ∨
      ∃ c s, bestScan sc lt l b = (some c, s) ∧ c ∈ l ∧ sc c = some s := by
  induction l generalizing b with
  | nil => exact Or.inl rfl
  | cons x l ih =>
    cases hsc : sc x with
    | none =>
      simp only [bestScan, hsc]
      rcases ih (b := b) with h | ⟨c, s, h1, h2, h3⟩
      · exact Or.inl h
      · exact Or.inr ⟨c, s, h1, List.mem_cons_of_mem _ h2, h3⟩
    | some s =>
      by_cases hb : lt b.2 s = true
      · simp only [bestScan, hsc, hb, if_true]
        rcases ih (b := (some x, s)) with h | ⟨c, t, h1, h2, h3⟩
        · exact Or.inr ⟨x, s, h, List.mem_cons_self x l, hsc⟩
        · exact Or.inr ⟨c, t, h1, List.mem_cons_of_mem _ h2, h3⟩
      · rw [Bool.not_eq_true] at hb
        simp only [bestScan, hsc, hb, Bool.false_eq_true, if_false]
        rcases ih (b := b) with h | ⟨c, t, h1, h2, h3⟩
        · exact Or.inl h
        · exact Or.inr ⟨c, t, h1, List.mem_cons_of_mem _ h2, h3⟩

theorem bestScan_append {α β : Type} (sc : α → Option β) (lt : β → β → Bool)
    (l1 l2 : List α) (b : Option α × β) :
    bestScan sc lt (l1 ++ l2) b = bestScan sc lt l2 (bestScan sc lt l1 b) := by
  induction l1 generalizing b with
  | nil => rfl
  | cons x l1 ih =>
    cases hsc : sc x with
    | none => simp only [List.cons_append, bestScan, hsc]; exact ih _
    | some s =>
      by_cases hb : lt b.2 s = true
      · simp only [List.cons_append, bestScan, hsc, hb, if_true]; exact ih _
      · rw [Bool.not_eq_true] at hb
        simp only [List.cons_append, bestScan, hsc, hb, Bool.false_eq_true, if_false]
        exact ih _

theorem bestScan_lt_max {α β : Type} [LinearOrder β] (sc : α → Option β) (lt : β → β → Bool)
    (hlt : ∀ a b : β, lt a b = true ↔ a < b) {l : List α} {b : Option α × β} {s0 : β}
    (hb : b.2 < s0) (h : ∀ x ∈ l, ∀ s, sc x = some s → s < s0) :
    (bestScan sc lt l b).2 < s0 := by
  induction l generalizing b with
  | nil => exact hb
  | cons x l ih =>
    cases hsc : sc x with
    | none =>
      simp only [bestScan, hsc]
      exact ih hb (fun y hy s hs => h y (List.mem_cons_of_mem _ hy) s hs)
    | some s =>
      by_cases hcond : lt b.2 s = true
      · simp only [bestScan, hsc, hcond, if_true]
        exact ih (h x (List.mem_cons_self x l) s hsc)
          (fun y hy t ht => h y (List.mem_cons_of_mem _ hy) t ht)
      · rw [Bool.not_eq_true] at hcond
        simp only [bestScan, hsc, hcond, Bool.false_eq_true, if_false]
        exact ih hb (fun y hy t ht => h y (List.mem_cons_of_mem _ hy) t ht)

theorem bestScan_first_max {α β : Type} [LinearOrder β] (sc : α → Option β) (lt : β → β → Bool)
    (hlt : ∀ a b : β, lt a b = true ↔ a < b) {l1 l2 : List α} {c : α} {s0 : β}
    {b : Option α × β}
    (hsc : sc c = some s0) (hb : b.2 < s0)
    (h1 : ∀ x ∈ l1, ∀ s, sc x = some s → s < s0)
    (h2 : ∀ y ∈ l2, ∀ s, sc y = some s → s ≤ s0) :
    bestScan sc lt (l1 ++ c :: l2) b = (some c, s0) := by
  rw [bestScan_append]
  have hmax : (bestScan sc lt l1 b).2 < s0 := bestScan_lt_max sc lt hlt hb h1
  simp only [bestScan, hsc, (hlt _ _).mpr hmax, if_true]
  apply bestScan_keep
  intro y hy s hs
  have hle : s ≤ s0 := h2 y hy s hs
  cases hcase : lt ((some c, s0) : Option α × β).2 s with
  | false => rfl
  | true => exact absurd ((hlt _ _).mp hcase) (not_lt_of_le hle)

/-! ### Support lemmas about the length-descending sort -/

theorem mem_insertByLen {x name : String} {l : List String} :
    x ∈ insertByLen name l ↔ x = name ∨ x ∈ l := by
  induction l with
  | nil => simp [insertByLen]
  | cons m ms ih =>
    simp only [insertByLen]
    by_cases h : name.length ≤ m.length
    · simp only [h, if_true, List.mem_cons, ih]
      tauto
    · simp [h, List.mem_cons]

theorem mem_sortNamesByLen {x : String} {l : List String} :
    x ∈ sortNamesByLen l ↔ x ∈ l := by
  induction l with
  | nil => simp [sortNamesByLen]
  | cons n ns ih =>
    simp only [sortNamesByLen, mem_insertByLen, ih, List.mem_cons]

theorem pairwise_insertByLen {name : String} {l : List String}
    (h : l.Pairwise (fun a b => b.length ≤ a.length)) :
    (insertByLen name l).Pairwise (fun a b => b.length ≤ a.length) := by
  induction l with
  | nil => simp [insertByLen]
  | cons m ms ih =>
    rcases List.pairwise_cons.mp h with ⟨hm, hms⟩
    simp only [insertByLen]
    by_cases hle : name.length ≤ m.length
    · simp only [hle, if_true]
      refine List.pairwise_cons.mpr ⟨?_, ih hms⟩
      intro b hb
      rcases mem_insertByLen.mp hb with rfl | hbm
      · exact hle
      · exact hm b hbm
    · simp only [hle, if_false]
      refine List.pairwise_cons.mpr ⟨?_, h⟩
      intro b hb
      rcases List.mem_cons.mp hb with rfl | hbm
      · exact le_of_lt (lt_of_not_le hle)
      · exact le_trans (hm b hbm) (le_of_lt (lt_of_not_le hle))

theorem pairwise_sortNamesByLen (l : List String) :
    (sortNamesByLen l).Pairwise (fun a b => b.length ≤ a.length) := by
  induction l with
  | nil => simp [sortNamesByLen]
  | cons n ns ih => exact pairwise_insertByLen ih

/-! ### Decomposition of a successful `find?` -/

theorem find?_decomp {α : Type} {p : α → Bool} {l : List α} {a : α}
    (h : l.find? p = some a) :
    ∃ l1 l2, l = l1 ++ a :: l2 ∧ ∀ x ∈ l1, p x = false := by
  induction l with
  | nil => simp [List.find?] at h
  | cons x xs ih =>
    cases hpx : p x with
    | true =>
      rw [List.find?_cons_of_pos _ hpx] at h
      obtain rfl : x = a := by injection h
      exact ⟨[], xs, rfl, by intro y hy; exact absurd hy (List.not_mem_nil y)⟩
    | false =>
      rw [List.find?_cons_of_neg _ (by simp [hpx])] at h
      obtain ⟨l1, l2, rfl, hl1⟩ := ih h
      refine ⟨x :: l1, l2, rfl, ?_⟩
      intro y hy
      rcases List.mem_cons.mp hy with rfl | hyl
      · exact hpx
      · exact hl1 y hyl

/-! ### Facts about the distinct member names -/

theorem mem_distinctNames {messages : List MemberMessage} {n : String} :
    n ∈ distinctNames messages ↔
      (∃ m ∈ messages, m.member_name = some n) ∧ n ≠ "" := by
  unfold distinctNames
  rw [List.mem_dedup, List.mem_filterMap]
  constructor
  · rintro ⟨m, hm, hpick⟩
    rcases hmn : m.member_name with _ | v
    · simp only [hmn] at hpick
      exact absurd hpick (by simp)
    · simp only [hmn] at hpick
      by_cases hv : v = ""
      · rw [if_pos hv] at hpick; exact absurd hpick (by simp)
      · rw [if_neg hv] at hpick
        obtain rfl : v = n := by injection hpick
        exact ⟨⟨m, hm, hmn⟩, hv⟩
  · rintro ⟨⟨m, hm, hmn⟩, hne⟩
    exact ⟨m, hm, by rw [hmn]; simp [hne]⟩

theorem msgCount_pos {messages : List MemberMessage} {n : String}
    (h : n ∈ distinctNames messages) : 0 < msgCount messages n := by
  obtain ⟨⟨m, hm, hmn⟩, hne⟩ := mem_distinctNames.mp h
  have hmem : m ∈ messages.filter (fun m =>
      match m.member_name with
      | some v => !(v == "") && (v == n)
      | none => false) := by
    refine List.mem_filter.mpr ⟨hm, ?_⟩
    rw [hmn]
    simp [hne]
  unfold msgCount
  exact List.length_pos.mpr (List.ne_nil_of_mem hmem)

theorem filter_member_ne_nil {messages : List MemberMessage} {n : String}
    (h : n ∈ distinctNames messages) :
    filter_messages_for_member messages n ≠ [] := by
  obtain ⟨⟨m, hm, hmn⟩, _⟩ := mem_distinctNames.mp h
  have hmem : m ∈ filter_messages_for_member messages n := by
    refine List.mem_filter.mpr ⟨hm, ?_⟩
    rw [hmn]
    simp
  exact List.ne_nil_of_mem hmem

theorem isEmpty_false_of_mem_distinctNames {messages : List MemberMessage} {n : String}
    (h : n ∈ distinctNames messages) : messages.isEmpty = false := by
  obtain ⟨⟨m, hm, _⟩, _⟩ := mem_distinctNames.mp h
  cases messages with
  | nil => exact absurd hm (List.not_mem_nil m)
  | cons x xs => rfl

/-! ### Every resolved or suggested member occurs in the collection -/

theorem find_member_mem {question : String} {messages : List MemberMessage} {n : String}
    (h : find_member_name_in_question question messages = some n) :
    n ∈ distinctNames messages := by
  unfold find_member_name_in_question at h
  by_cases he : messages.isEmpty
  · rw [if_pos he] at h
    exact absurd h (by simp)
  · rw [if_neg he] at h
    rcases hf : (sortNamesByLen (distinctNames messages)).find? (fun name =>
        !(name == "") && containsSub (pyLower question) (pyLower name)) with _ | name
    · simp only [hf] at h
      rcases hu : uniqueFirstNameMatch (distinctNames messages) (questionTokens question)
          with _ | name
      · simp only [hu] at h
        unfold pickMostMessages at h
        rcases bestScan_cases (fun name => some (msgCount messages name)) Nat.blt
            (l := ambigCandidates (distinctNames messages) (questionTokens question))
            (b := (none, 0)) with hcase | ⟨c, s, heq, hmem, _⟩
        · rw [hcase] at h
          exact absurd h (by simp)
        · rw [heq] at h
          obtain rfl : c = n := by injection h
          rcases List.mem_flatMap.mp hmem with ⟨t, _, hct⟩
          by_cases hlen : (firstNameCandidates (distinctNames messages) t).length > 1
          · rw [if_pos hlen] at hct
            exact (List.mem_filter.mp hct).1
          · rw [if_neg hlen] at hct
            exact absurd hct (List.not_mem_nil c)
      · simp only [hu] at h
        obtain rfl : name = n := by injection h
        rcases List.exists_of_findSome?_eq_some hu with ⟨t, _, hsome⟩
        rcases hc : firstNameCandidates (distinctNames messages) t with _ | ⟨c, rest⟩
        · rw [hc] at hsome
          exact absurd hsome (by simp)
        · cases rest with
          | nil =>
            rw [hc] at hsome
            obtain rfl : c = name := by injection hsome
            have hmc : c ∈ firstNameCandidates (distinctNames messages) t := by
              rw [hc]; exact List.mem_cons_self c []
            exact (List.mem_filter.mp hmc).1
          | cons c2 rest2 =>
            rw [hc] at hsome
            exact absurd hsome (by simp)
    · simp only [hf] at h
      obtain rfl : name = n := by injection h
      exact mem_sortNamesByLen.mp (List.mem_of_find?_eq_some hf)

theorem suggest_mem {requested : String} {messages : List MemberMessage} {n : String}
    (h : suggest_similar_member_by_first_name requested messages = some n) :
    n ∈ distinctNames messages := by
  unfold suggest_similar_member_by_first_name at h
  rcases bestScan_cases (first_name_ratio (lowerChars requested.data)) Rat.blt
      (l := distinctNames messages) (b := (none, 0)) with hcase | ⟨c, s, heq, hmem, _⟩
  · rw [hcase] at h
    exact absurd h (by simp)
  · simp only [heq] at h
    by_cases hthr : mkRat 4 5 ≤ s
    · rw [if_pos hthr] at h
      obtain rfl : c = n := by injection h
      exact hmem
    · rw [if_neg hthr] at h
      exact absurd h (by simp)

theorem mem_ambigCandidates {names tokens : List String} {x : String}
    (h : x ∈ ambigCandidates names tokens) : x ∈ names := by
  rcases List.mem_flatMap.mp h with ⟨t, _, hxt⟩
  by_cases hlen : (firstNameCandidates names t).length > 1
  · rw [if_pos hlen] at hxt
    exact (List.mem_filter.mp hxt).1
  · rw [if_neg hlen] at hxt
    exact absurd hxt (List.not_mem_nil x)

theorem isEmpty_false_of_ne_nil {α : Type} {l : List α} (h : l ≠ []) : l.isEmpty = false := by
  cases l with
  | nil => exact absurd rfl h
  | cons x xs => rfl

/-- `findSome?` distributes over append, taking the left result first. -/
theorem findSome?_append {α β : Type} (f : α → Option β) (l1 l2 : List α) :
    List.findSome? f (l1 ++ l2) =
      match List.findSome? f l1 with
      | some b => some b
      | none => List.findSome? f l2 := by
  induction l1 with
  | nil => simp [List.findSome?]
  | cons x l1 ih =>
    cases hfx : f x with
    | none => simp only [List.cons_append, List.findSome?_cons, hfx]; exact ih
    | some b => simp only [List.cons_append, List.findSome?_cons, hfx]

/-- The car-count extractor's not-found fallback fires exactly when no
message matches the pattern (shared by the C1 and C6 theorems). -/
theorem answer_car_count_notfound (member_name : String) (messages : List MemberMessage)
    (h : ∀ m ∈ messages, extract_car_count_from_text m.text = none) :
    answer_car_count member_name messages =
      "I couldn't find how many cars " ++ member_name ++ " has in their messages." := by
  unfold answer_car_count
  rw [List.findSome?_eq_none_iff.mpr (fun m hm => h m (List.mem_reverse.mp hm))]

/-! ### Example data used by the witnesses -/

/-- Two members sharing the first name Layla (with 2 and 1 messages)
plus a uniquely named third member. -/
def exMsgsLayla : List MemberMessage :=
  [⟨none, some "Layla Smith", "hello world", none⟩,
   ⟨none, some "Layla Smith", "I have 1 car", none⟩,
   ⟨none, some "Layla Jones", "hi there", none⟩,
   ⟨none, some "Sophia Al-Farsi", "My trip to Rome is on July 10", none⟩]

/-- A member whose car count was updated by a later message. -/
def exCarMsgs : List MemberMessage :=
  [⟨none, some "Dana", "I have 1 car", none⟩,
   ⟨none, some "Dana", "Actually now I have 2 cars", none⟩]

/-! ### Claim theorems -/

/-- Claim C9: for every question, the engine applied to the empty
message collection returns the fixed "nothing retrieved" fallback,
before any resolution, classification or extraction. -/
theorem c9_empty_collection_fallback (question : String) :
    answer_question_baseline question [] = "I couldn't retrieve any member messages." := rfl

/-- Claim C5: `detect_question_type` evaluates its keyword rules on the
lower-cased question in the fixed order car_count, favorite_restaurants,
trip_when, generic, first match winning; a question matching both the
car-count and favorite-restaurant keyword sets is classified car_count,
and the orchestrator then runs only the car-count extractor. -/
theorem c5_classifier_priority_order (question : String) :
    ((containsSub (pyLower question) "how many" && containsSub (pyLower question) "car") = true →
      detect_question_type question = "car_count")
    ∧ ((containsSub (pyLower question) "how many" && containsSub (pyLower question) "car") = false →
       (containsSub (pyLower question) "favorite" && containsSub (pyLower question) "restaurant") = true →
      detect_question_type question = "favorite_restaurants")
    ∧ ((containsSub (pyLower question) "how many" && containsSub (pyLower question) "car") = false →
       (containsSub (pyLower question) "favorite" && containsSub (pyLower question) "restaurant") = false →
       (containsSub (pyLower question) "when" && containsSub (pyLower question) "trip") = true →
      detect_question_type question = "trip_when")
    ∧ ((containsSub (pyLower question) "how many" && containsSub (pyLower question) "car") = false →
       (containsSub (pyLower question) "favorite" && containsSub (pyLower question) "restaurant") = false →
       (containsSub (pyLower question) "when" && containsSub (pyLower question) "trip") = false →
      detect_question_type question = "generic")
    ∧ (∀ (member_name : String) (member_msgs : List MemberMessage) (latest : MemberMessage),
        detect_question_type question = "car_count" →
        core_answer_for question member_name member_msgs latest =
          answer_car_count member_name member_msgs) := by
  refine ⟨?_, ?_, ?_, ?_, ?_⟩
  · intro h1
    unfold detect_question_type
    rw [h1]
    simp
  · intro h1 h2
    unfold detect_question_type
    rw [h1, h2]
    simp
  · intro h1 h2 h3
    unfold detect_question_type
    rw [h1, h2, h3]
    simp
  · intro h1 h2 h3
    unfold detect_question_type
    rw [h1, h2, h3]
    simp
  · intro member_name member_msgs latest h
    unfold core_answer_for
    rw [h]
    simp

/-- Witness for C5 at a question matching both the car-count and the
favorite-restaurant keyword sets. -/
theorem c5_witness :
    (containsSub (pyLower "how many cars does she keep at her favorite restaurant") "how many" &&
      containsSub (pyLower "how many cars does she keep at her favorite restaurant") "car") = true ∧
    (containsSub (pyLower "how many cars does she keep at her favorite restaurant") "favorite" &&
      containsSub (pyLower "how many cars does she keep at her favorite restaurant") "restaurant") = true ∧
    detect_question_type "how many cars does she keep at her favorite restaurant" = "car_count" ∧
    core_answer_for "how many cars does she keep at her favorite restaurant" "Ann" exCarMsgs
      ⟨none, none, "", none⟩ = answer_car_count "Ann" exCarMsgs :=
  ⟨by decide, by decide,
   (c5_classifier_priority_order "how many cars does she keep at her favorite restaurant").1 (by decide),
   (c5_classifier_priority_order "how many cars does she keep at her favorite restaurant").2.2.2.2
     "Ann" exCarMsgs ⟨none, none, "", none⟩
     ((c5_classifier_priority_order "how many cars does she keep at her favorite restaurant").1 (by decide))⟩

/-- Claim C6: `answer_car_count` scans the member's messages from most
recent to oldest and reports the first extracted count, with the plural
"s" present exactly when the count differs from 1; when no message
matches it returns the not-found message naming the member. -/
theorem c6_car_count_recency_plural (member_name : String) (messages : List MemberMessage) :
    ((∀ m ∈ messages, extract_car_count_from_text m.text = none) →
      answer_car_count member_name messages =
        "I couldn't find how many cars " ++ member_name ++ " has in their messages.")
    ∧ (∀ ms1 msg ms2 n, messages = ms1 ++ msg :: ms2 →
        extract_car_count_from_text msg.text = some n →
        (∀ m ∈ ms2, extract_car_count_from_text m.text = none) →
        answer_car_count member_name messages =
          member_name ++ " has " ++ toString n ++ " car" ++
          (if n != 1 then "s" else "") ++ ".") := by
  constructor
  · exact answer_car_count_notfound member_name messages
  · intro ms1 msg ms2 n hdecomp hmsg hafter
    subst hdecomp
    unfold answer_car_count
    rw [List.reverse_append, List.reverse_cons]
    rw [findSome?_append, findSome?_append]
    rw [List.findSome?_eq_none_iff.mpr (fun m hm =>
      hafter m (List.mem_reverse.mp hm))]
    simp only [List.findSome?_cons, hmsg, List.findSome?_nil]

/-- Witness for C6: the chronological messages "I have 1 car",
"Actually now I have 2 cars" answer two cars, and both pluralizations
are rendered correctly. -/
theorem c6_witness :
    extract_car_count_from_text "Actually now I have 2 cars" = some 2 ∧
    answer_car_count "Dana" exCarMsgs = "Dana has 2 cars." ∧
    answer_car_count "Dana" [⟨none, some "Dana", "I have 1 car", none⟩] = "Dana has 1 car." := by
  refine ⟨by decide, ?_, ?_⟩
  · have h := (c6_car_count_recency_plural "Dana" exCarMsgs).2
      [⟨none, some "Dana", "I have 1 car", none⟩]
      ⟨none, some "Dana", "Actually now I have 2 cars", none⟩ [] 2
      (by decide) (by decide) (by intro m hm; exact absurd hm (List.not_mem_nil m))
    rw [h]
    decide
  · have h := (c6_car_count_recency_plural "Dana" [⟨none, some "Dana", "I have 1 car", none⟩]).2
      [] ⟨none, some "Dana", "I have 1 car", none⟩ [] 1
      (by decide) (by decide) (by intro m hm; exact absurd hm (List.not_mem_nil m))
    rw [h]
    decide

/-- Claim C2: whenever some distinct non-empty member name occurs
(lower-cased) as a substring of the lower-cased question, strict
resolution returns such a name — one of maximal length among the
matching names, tried longest first — before any first-name rule. -/
theorem c2_full_name_substring_priority (question : String) (messages : List MemberMessage)
    (n : String) (hn : n ∈ distinctNames messages)
    (hmatch : containsSub (pyLower question) (pyLower n) = true) :
    ∃ m, find_member_name_in_question question messages = some m ∧
      m ∈ distinctNames messages ∧
      containsSub (pyLower question) (pyLower m) = true ∧
      ∀ x ∈ distinctNames messages, containsSub (pyLower question) (pyLower x) = true →
        x.length ≤ m.length := by
  have hnne : n ≠ "" := (mem_distinctNames.mp hn).2
  have hEmpty : messages.isEmpty = false := isEmpty_false_of_mem_distinctNames hn
  have hpn : (fun name => !(name == "") && containsSub (pyLower question) (pyLower name)) n
      = true := by
    simp [hnne, hmatch]
  rcases hf : (sortNamesByLen (distinctNames messages)).find? (fun name =>
      !(name == "") && containsSub (pyLower question) (pyLower name)) with _ | m
  · exfalso
    exact absurd hpn (by
      have := List.find?_eq_none.mp hf n (mem_sortNamesByLen.mpr hn)
      simpa using this)
  · have hpm := List.find?_some hf
    have hmm : m ∈ distinctNames messages :=
      mem_sortNamesByLen.mp (List.mem_of_find?_eq_some hf)
    have hmc : containsSub (pyLower question) (pyLower m) = true := by
      rcases Bool.and_eq_true_iff.mp hpm with ⟨_, h2⟩
      exact h2
    refine ⟨m, ?_, hmm, hmc, ?_⟩
    · unfold find_member_name_in_question
      rw [hEmpty]
      simp only [Bool.false_eq_true, if_false, hf]
    · intro x hx hxc
      obtain ⟨l1, l2, hde, hl1⟩ := find?_decomp hf
      have hxs : x ∈ sortNamesByLen (distinctNames messages) := mem_sortNamesByLen.mpr hx
      have hpx : (fun name => !(name == "") && containsSub (pyLower question) (pyLower name)) x
          = true := by
        simp [(mem_distinctNames.mp hx).2, hxc]
      rw [hde] at hxs
      rcases List.mem_append.mp hxs with hx1 | hx2
      · exact absurd hpx (by simp [hl1 x hx1])
      · rcases List.mem_cons.mp hx2 with rfl | hx3
        · exact le_rfl
        · have hpw := pairwise_sortNamesByLen (distinctNames messages)
          rw [hde] at hpw
          rcases List.pairwise_append.mp hpw with ⟨_, hp2, _⟩
          exact (List.pairwise_cons.mp hp2).1 x hx3

/-- Witness for C2: "Sophia Al-Farsi" resolves by full-name match even
though "Sophia" alone could be handled only by first-name rules. -/
theorem c2_witness :
    "Sophia Al-Farsi" ∈ distinctNames exMsgsLayla ∧
    containsSub (pyLower "When is Sophia Al-Farsi planning her trip?")
      (pyLower "Sophia Al-Farsi") = true ∧
    ∃ m, find_member_name_in_question "When is Sophia Al-Farsi planning her trip?" exMsgsLayla
        = some m ∧
      m ∈ distinctNames exMsgsLayla ∧
      containsSub (pyLower "When is Sophia Al-Farsi planning her trip?") (pyLower m) = true ∧
      ∀ x ∈ distinctNames exMsgsLayla,
        containsSub (pyLower "When is Sophia Al-Farsi planning her trip?") (pyLower x) = true →
        x.length ≤ m.length :=
  ⟨by decide, by decide,
   c2_full_name_substring_priority "When is Sophia Al-Farsi planning her trip?" exMsgsLayla
     "Sophia Al-Farsi" (by decide) (by decide)⟩

/-- Claim C3: when no full-name substring matches and no token has a
unique first-name candidate, the resolver returns the first ambiguous
candidate (in token order, then entry order) whose message count is
maximal — in particular the candidate with the strictly highest
count. -/
theorem c3_ambiguous_first_name_popularity (question : String) (messages : List MemberMessage)
    (c : String) (l1 l2 : List String)
    (hfull : ∀ x ∈ distinctNames messages, containsSub (pyLower question) (pyLower x) = false)
    (huniq : ∀ t ∈ questionTokens question,
      (firstNameCandidates (distinctNames messages) t).length ≠ 1)
    (hdecomp : ambigCandidates (distinctNames messages) (questionTokens question) = l1 ++ c :: l2)
    (hmax1 : ∀ x ∈ l1, msgCount messages x < msgCount messages c)
    (hmax2 : ∀ y ∈ l2, msgCount messages y ≤ msgCount messages c) :
    find_member_name_in_question question messages = some c := by
  have hcmem : c ∈ ambigCandidates (distinctNames messages) (questionTokens question) := by
    rw [hdecomp]
    exact List.mem_append.mpr (Or.inr (List.mem_cons_self c l2))
  have hcd : c ∈ distinctNames messages := mem_ambigCandidates hcmem
  have hEmpty : messages.isEmpty = false := isEmpty_false_of_mem_distinctNames hcd
  have hfind : (sortNamesByLen (distinctNames messages)).find? (fun name =>
      !(name == "") && containsSub (pyLower question) (pyLower name)) = none := by
    apply List.find?_eq_none.mpr
    intro x hx
    simp [hfull x (mem_sortNamesByLen.mp hx)]
  have huni : uniqueFirstNameMatch (distinctNames messages) (questionTokens question) = none := by
    apply List.findSome?_eq_none_iff.mpr
    intro t ht
    rcases hc : firstNameCandidates (distinctNames messages) t with _ | ⟨x, rest⟩
    · rfl
    · cases rest with
      | nil => exact absurd (by rw [hc]; rfl) (huniq t ht)
      | cons y rest2 => rfl
  have hpick : pickMostMessages messages
      (ambigCandidates (distinctNames messages) (questionTokens question)) = some c := by
    unfold pickMostMessages
    rw [hdecomp]
    rw [bestScan_first_max (fun name => some (msgCount messages name)) Nat.blt
      (fun a b => natBlt_true) rfl (msgCount_pos hcd)
      (fun x hx s hs => by
        obtain rfl : msgCount messages x = s := by injection hs
        exact hmax1 x hx)
      (fun y hy s hs => by
        obtain rfl : msgCount messages y = s := by injection hs
        exact hmax2 y hy)]
  unfold find_member_name_in_question
  rw [hEmpty]
  simp only [Bool.false_eq_true, if_false, hfind, huni, hpick]

/-- Witness for C3: a question containing only "Layla", with Layla
Smith holding 2 messages and Layla Jones 1, resolves to Layla Smith. -/
theorem c3_witness :
    msgCount exMsgsLayla "Layla Jones" < msgCount exMsgsLayla "Layla Smith" ∧
    find_member_name_in_question "what is layla up to" exMsgsLayla = some "Layla Smith" :=
  ⟨by decide,
   c3_ambiguous_first_name_popularity "what is layla up to" exMsgsLayla
     "Layla Smith" [] ["Layla Jones"]
     (by decide) (by decide) (by decide)
     (by intro x hx; exact absurd hx (List.not_mem_nil x))
     (by decide)⟩

/-- Claim C1: the engine is a total function into strings with no
exception-based control flow: the empty collection, an unresolved
member, and extractors with no pattern match each render their fixed
fallback string. -/
theorem c1_engine_totality_fixed_fallbacks (question : String) (messages : List MemberMessage) :
    (messages = [] →
      answer_question_baseline question messages = "I couldn't retrieve any member messages.")
    ∧ (messages ≠ [] → resolve_member_combined question messages = none →
      answer_question_baseline question messages =
        "I couldn't identify which member the question is about.")
    ∧ (∀ (name : String) (msgs : List MemberMessage),
        (∀ m ∈ msgs, extract_car_count_from_text m.text = none) →
        answer_car_count name msgs =
          "I couldn't find how many cars " ++ name ++ " has in their messages.")
    ∧ (extract_destination_from_question question = none →
      ∀ (name : String) (msgs : List MemberMessage),
        (∀ m ∈ msgs, containsSub (pyLower m.text) "trip" = false) →
        answer_trip_when question name msgs =
          "I couldn't find any trip details for " ++ name ++ ".")
    ∧ (∀ (name : String) (msgs : List MemberMessage),
        (∀ m ∈ msgs, (containsSub (pyLower m.text) "favorite" &&
          containsSub (pyLower m.text) "restaurant") = false) →
        answer_favorite_restaurants name msgs =
          "I couldn't find any messages about " ++ name ++ "'s favorite restaurants.") := by
  refine ⟨?_, ?_, ?_, ?_, ?_⟩
  · rintro rfl
    rfl
  · intro hne hres
    unfold answer_question_baseline
    rw [isEmpty_false_of_ne_nil hne]
    simp only [Bool.false_eq_true, if_false, hres]
  · exact fun name msgs h => answer_car_count_notfound name msgs h
  · intro hdest name msgs hno
    unfold answer_trip_when
    rw [hdest]
    simp only [Option.getD_none, beq_self_eq_true, if_true]
    rw [List.filter_eq_nil_iff.mpr (fun m hm => by simp [hno m hm])]
    rfl
  · intro name msgs hno
    unfold answer_favorite_restaurants
    rw [List.filter_eq_nil_iff.mpr (fun m hm => by simp [hno m hm])]
    rfl

/-- Witness for C1: the empty-collection fallback and the car-count
extractor fallback at concrete inputs. -/
theorem c1_witness :
    answer_question_baseline "anything" [] = "I couldn't retrieve any member messages." ∧
    answer_car_count "Ann" [⟨none, some "Ann", "no cars here", none⟩] =
      "I couldn't find how many cars " ++ "Ann" ++ " has in their messages." :=
  ⟨(c1_engine_totality_fixed_fallbacks "anything" []).1 rfl,
   (c1_engine_totality_fixed_fallbacks "anything" []).2.2.1 "Ann"
     [⟨none, some "Ann", "no cars here", none⟩] (by decide)⟩

/-- Counterexample to claim C8 as stated: on the question
`"when is the trip to  ?"` the destination pattern extracts the empty
string (after trimming), every message trivially contains that empty
destination, yet the extractor takes the no-destination fallback path
(filtering by "trip") instead of using the last destination-matching
message, so the output is neither of the two shapes the claim allows
for an extracted destination. -/
theorem c8_counterexample_empty_destination :
    extract_destination_from_question "when is the trip to  ?" = some "" ∧
    containsSub (pyLower "See you June 5") (pyLower "") = true ∧
    extract_date_phrase "See you June 5" = some "June 5" ∧
    answer_trip_when "when is the trip to  ?" "Bob"
        [⟨none, some "Bob", "See you June 5", none⟩] =
      "I couldn't find any trip details for Bob." ∧
    answer_trip_when "when is the trip to  ?" "Bob"
        [⟨none, some "Bob", "See you June 5", none⟩] ≠
      "Bob" ++ " is planning their trip to " ++ "" ++ " around " ++ "June 5" ++ "." := by
  refine ⟨by decide, by decide, by decide, by decide, by decide⟩

/-- Claim C8 (amended: a destination extracted as the empty string is
treated as no destination): when a non-empty destination is extracted,
the extractor uses only the messages whose lower-cased text contains
the lower-cased destination — the not-found message naming member and
destination when there are none, else the last such message, rendered
with its date phrase when one is found and verbatim otherwise. -/
theorem c8_destination_scoping_amended (question member_name : String)
    (messages : List MemberMessage) (destination : String)
    (hd : extract_destination_from_question question = some destination)
    (hne : destination ≠ "") :
    (messages.filter (fun m => containsSub (pyLower m.text) (pyLower destination)) = [] →
      answer_trip_when question member_name messages =
        "I couldn't find any messages from " ++ member_name ++ " about a trip to " ++
          destination ++ ".")
    ∧ (∀ latest,
        (messages.filter (fun m =>
          containsSub (pyLower m.text) (pyLower destination))).getLast? = some latest →
        (∀ d, extract_date_phrase latest.text = some d →
          answer_trip_when question member_name messages =
            member_name ++ " is planning their trip to " ++ destination ++ " around " ++ d ++ ".")
        ∧ (extract_date_phrase latest.text = none →
          answer_trip_when question member_name messages = latest.text)) := by
  have hbeq : (destination == "") = false := by
    simp [hne]
  constructor
  · intro hfil
    unfold answer_trip_when
    rw [hd]
    simp only [Option.getD_some, hbeq, Bool.false_eq_true, if_false, hfil, List.getLast?_nil]
  · intro latest hlast
    constructor
    · intro d hdate
      unfold answer_trip_when
      rw [hd]
      simp only [Option.getD_some, hbeq, Bool.false_eq_true, if_false, hlast, hdate]
    · intro hdate
      unfold answer_trip_when
      rw [hd]
      simp only [Option.getD_some, hbeq, Bool.false_eq_true, if_false, hlast, hdate]

/-- Witness for the amended C8 on the Paris/Rome scoping example: the
Rome question is answered only from the Rome-mentioning message. -/
theorem c8_witness :
    extract_destination_from_question "When is Bob's trip to Rome?" = some "Rome" ∧
    answer_trip_when "When is Bob's trip to Rome?" "Bob"
        [⟨none, some "Bob", "I am going to Paris on June 5", none⟩,
         ⟨none, some "Bob", "My trip to Rome is on July 10", none⟩] =
      "Bob" ++ " is planning their trip to " ++ "Rome" ++ " around " ++ "July 10" ++ "." := by
  refine ⟨by decide, ?_⟩
  exact ((c8_destination_scoping_amended "When is Bob's trip to Rome?" "Bob"
      [⟨none, some "Bob", "I am going to Paris on June 5", none⟩,
       ⟨none, some "Bob", "My trip to Rome is on July 10", none⟩]
      "Rome" (by decide) (by decide)).2
    ⟨none, some "Bob", "My trip to Rome is on July 10", none⟩ (by decide)).1
    "July 10" (by decide)

theorem suggested_for_mem {question : String} {messages : List MemberMessage} {n : String}
    (h : suggested_for question messages = some n) : n ∈ distinctNames messages := by
  unfold suggested_for at h
  rcases hs : find_member_name_in_question question messages with _ | m
  · rcases hr : extract_requested_first_name question with _ | r
    · rw [hs, hr] at h
      exact absurd h (by simp)
    · rw [hs, hr] at h
      exact suggest_mem h
  · rw [hs] at h
    exact absurd h (by simp)

theorem resolve_member_combined_mem {question : String} {messages : List MemberMessage}
    {n : String} (h : resolve_member_combined question messages = some n) :
    n ∈ distinctNames messages := by
  unfold resolve_member_combined at h
  rcases hs : find_member_name_in_question question messages with _ | m
  · rw [hs] at h
    simp only [Option.orElse] at h
    exact suggested_for_mem h
  · rw [hs] at h
    simp only [Option.orElse] at h
    obtain rfl : m = n := by injection h
    exact find_member_mem hs

/-- Counterexample to claim C10 as stated: the engine can return the
literal string `"I couldn't find any messages for Bob."` — not through
the fallback branch, but because a message's raw text happens to equal
it and the generic extractor returns that text verbatim. -/
theorem c10_counterexample_literal_string :
    answer_question_baseline "Bob"
        [⟨none, some "Bob", "I couldn't find any messages for Bob.", none⟩] =
      "I couldn't find any messages for " ++ "Bob" ++ "." := by
  decide

/-- Claim C10 (amended: the fallback *branch* is unreachable, though
the literal fallback text can still be echoed from a message body):
every strictly resolved or fuzzily suggested name occurs among the
collection's member names, the member-filtered list of such a name is
never empty, and the engine computes the same answer as the variant
with the "no messages for {name}" branch removed. -/
theorem c10_no_messages_branch_unreachable (question : String) (messages : List MemberMessage) :
    (∀ n, find_member_name_in_question question messages = some n →
      n ∈ distinctNames messages)
    ∧ (∀ r n, suggest_similar_member_by_first_name r messages = some n →
      n ∈ distinctNames messages)
    ∧ (∀ n, n ∈ distinctNames messages → filter_messages_for_member messages n ≠ [])
    ∧ answer_question_baseline question messages =
        answer_question_no_empty_member_branch question messages := by
  refine ⟨fun n h => find_member_mem h, fun r n h => suggest_mem h,
    fun n h => filter_member_ne_nil h, ?_⟩
  unfold answer_question_baseline answer_question_no_empty_member_branch
  by_cases he : messages.isEmpty = true
  · rw [he]
    rfl
  · rw [Bool.not_eq_true] at he
    rw [he]
    simp only [Bool.false_eq_true, if_false]
    rcases hres : resolve_member_combined question messages with _ | name
    · rfl
    · rcases hl : (filter_messages_for_member messages name).getLast? with _ | latest
      · exact absurd (List.getLast?_eq_none_iff.mp hl)
          (filter_member_ne_nil (resolve_member_combined_mem hres))
      · simp only [hl]

/-- Witness for the amended C10 at a concrete input where resolution
succeeds. -/
theorem c10_witness :
    "Bob" ∈ distinctNames [⟨none, some "Bob", "hello", none⟩] ∧
    filter_messages_for_member [⟨none, some "Bob", "hello", none⟩] "Bob" ≠ [] ∧
    answer_question_baseline "Bob" [⟨none, some "Bob", "hello", none⟩] =
      answer_question_no_empty_member_branch "Bob" [⟨none, some "Bob", "hello", none⟩] :=
  ⟨(c10_no_messages_branch_unreachable "Bob" [⟨none, some "Bob", "hello", none⟩]).1
     "Bob" (by decide),
   (c10_no_messages_branch_unreachable "Bob" [⟨none, some "Bob", "hello", none⟩]).2.2.1
     "Bob" ((c10_no_messages_branch_unreachable "Bob" [⟨none, some "Bob", "hello", none⟩]).1
       "Bob" (by decide)),
   (c10_no_messages_branch_unreachable "Bob" [⟨none, some "Bob", "hello", none⟩]).2.2.2⟩

/-- Claim C4: when strict resolution fails and a requested first name
was extracted, the clarification-wrapped answer is produced exactly
when some member's first name reaches similarity ratio 4/5 = 0.80 to
the requested name; the adopted member attains the maximal ratio, and
when every candidate is strictly below the threshold the fixed
"cannot identify member" fallback is returned. -/
theorem c4_fuzzy_suggestion_threshold (question : String) (messages : List MemberMessage)
    (requested : String)
    (hne : messages.isEmpty = false)
    (hstrict : find_member_name_in_question question messages = none)
    (hreq : extract_requested_first_name question = some requested) :
    ((suggest_similar_member_by_first_name requested messages).isSome ↔
      ∃ x ∈ distinctNames messages, ∃ t,
        first_name_ratio (lowerChars requested.data) x = some t ∧ mkRat 4 5 ≤ t)
    ∧ (∀ name, suggest_similar_member_by_first_name requested messages = some name →
        (∃ t, first_name_ratio (lowerChars requested.data) name = some t ∧ mkRat 4 5 ≤ t ∧
          ∀ x ∈ distinctNames messages, ∀ s,
            first_name_ratio (lowerChars requested.data) x = some s → s ≤ t)
        ∧ answer_question_baseline question messages =
            "I couldn't find any member named " ++ requested ++ ", but I did find " ++ name ++
            ". Here is what their messages say:\n\n" ++
            core_answer_for question name (filter_messages_for_member messages name)
              ((filter_messages_for_member messages name).getLast?.getD ⟨none, none, "", none⟩))
    ∧ ((∀ x ∈ distinctNames messages, ∀ s,
          first_name_ratio (lowerChars requested.data) x = some s → s < mkRat 4 5) →
        answer_question_baseline question messages =
          "I couldn't identify which member the question is about.") := by
  have hub := bestScan_ub (first_name_ratio (lowerChars requested.data)) Rat.blt
    (fun a b => ratBlt_true) (l := distinctNames messages) (b := (none, 0))
  have hiff : (suggest_similar_member_by_first_name requested messages).isSome ↔
      ∃ x ∈ distinctNames messages, ∃ t,
        first_name_ratio (lowerChars requested.data) x = some t ∧ mkRat 4 5 ≤ t := by
    rcases bestScan_cases (first_name_ratio (lowerChars requested.data)) Rat.blt
        (l := distinctNames messages) (b := (none, 0)) with hB | ⟨c, s, hB, hcm, hcs⟩
    · have hsug : suggest_similar_member_by_first_name requested messages = none := by
        unfold suggest_similar_member_by_first_name
        simp only [hB]
      rw [hsug]
      simp only [Option.isSome_none, Bool.false_eq_true, false_iff]
      rintro ⟨x, hx, t, hxt, hthr⟩
      have hle : t ≤ (bestScan (first_name_ratio (lowerChars requested.data)) Rat.blt
          (distinctNames messages) (none, 0)).2 := hub x hx t hxt
      rw [hB] at hle
      exact absurd (le_trans hthr hle) (by decide)
    · by_cases hthr : mkRat 4 5 ≤ s
      · have hsug : suggest_similar_member_by_first_name requested messages = some c := by
          unfold suggest_similar_member_by_first_name
          simp only [hB, hthr, if_true]
        rw [hsug]
        simp only [Option.isSome_some, true_iff]
        exact ⟨c, hcm, s, hcs, hthr⟩
      · have hsug : suggest_similar_member_by_first_name requested messages = none := by
          unfold suggest_similar_member_by_first_name
          simp only [hB, hthr, if_false]
        rw [hsug]
        simp only [Option.isSome_none, Bool.false_eq_true, false_iff]
        rintro ⟨x, hx, t, hxt, ht⟩
        have hle : t ≤ (bestScan (first_name_ratio (lowerChars requested.data)) Rat.blt
            (distinctNames messages) (none, 0)).2 := hub x hx t hxt
        rw [hB] at hle
        exact hthr (le_trans ht hle)
  refine ⟨hiff, ?_, ?_⟩
  · intro name hs
    have hname_mem : name ∈ distinctNames messages := suggest_mem hs
    have hratio : ∃ t, first_name_ratio (lowerChars requested.data) name = some t ∧
        mkRat 4 5 ≤ t ∧ ∀ x ∈ distinctNames messages, ∀ s,
          first_name_ratio (lowerChars requested.data) x = some s → s ≤ t := by
      rcases bestScan_cases (first_name_ratio (lowerChars requested.data)) Rat.blt
          (l := distinctNames messages) (b := (none, 0)) with hB | ⟨c, s, hB, hcm, hcs⟩
      · exfalso
        have hsug : suggest_similar_member_by_first_name requested messages = none := by
          unfold suggest_similar_member_by_first_name
          simp only [hB]
        rw [hsug] at hs
        exact absurd hs (by simp)
      · by_cases hthr : mkRat 4 5 ≤ s
        · have hsug : suggest_similar_member_by_first_name requested messages = some c := by
            unfold suggest_similar_member_by_first_name
            simp only [hB, hthr, if_true]
          rw [hsug] at hs
          obtain rfl : c = name := by injection hs
          refine ⟨s, hcs, hthr, ?_⟩
          intro x hx s' hx'
          have hle := hub x hx s' hx'
          rw [hB] at hle
          exact hle
        · exfalso
          have hsug : suggest_similar_member_by_first_name requested messages = none := by
            unfold suggest_similar_member_by_first_name
            simp only [hB, hthr, if_false]
          rw [hsug] at hs
          exact absurd hs (by simp)
    refine ⟨hratio, ?_⟩
    have hsf : suggested_for question messages = some name := by
      unfold suggested_for
      simp only [hstrict, hreq]
      exact hs
    have hres : resolve_member_combined question messages = some name := by
      unfold resolve_member_combined
      rw [hstrict]
      simp only [Option.orElse]
      exact hsf
    rcases hl : (filter_messages_for_member messages name).getLast? with _ | latest
    · exact absurd (List.getLast?_eq_none_iff.mp hl) (filter_member_ne_nil hname_mem)
    · unfold answer_question_baseline
      rw [hne]
      simp only [Bool.false_eq_true, if_false, hres, hl, hsf, hreq, Option.getD_some]
  · intro hall
    have hsug : suggest_similar_member_by_first_name requested messages = none := by
      rcases hcase : suggest_similar_member_by_first_name requested messages with _ | nm
      · rfl
      · exfalso
        have hisS : (suggest_similar_member_by_first_name requested messages).isSome := by
          rw [hcase]
          rfl
        rcases hiff.mp hisS with ⟨x, hx, t, hxt, hthr⟩
        exact absurd hthr (not_le_of_lt (hall x hx t hxt))
    have hsf : suggested_for question messages = none := by
      unfold suggested_for
      simp only [hstrict, hreq]
      exact hsug
    have hres : resolve_member_combined question messages = none := by
      unfold resolve_member_combined
      rw [hstrict]
      simp only [Option.orElse]
      exact hsf
    unfold answer_question_baseline
    rw [hne]
    simp only [Bool.false_eq_true, if_false, hres]

/-- A collection whose only member, Amina Van Den Berg, has first-name
similarity exactly 0.80 to the requested "Amira". -/
def exAminaMsgs : List MemberMessage :=
  [⟨none, some "Amina Van Den Berg", "My favorite restaurant is Luigi place", none⟩]

/-- A collection whose only member has first-name similarity below
0.80 to the requested "Amira". -/
def exZoeMsgs : List MemberMessage :=
  [⟨none, some "Zoe Woods", "hello", none⟩]

set_option maxRecDepth 40000 in
/-- Witness for C4: requesting "Amira" against "Amina Van Den Berg"
(ratio exactly 0.80) yields the clarification-wrapped answer, while a
collection with every ratio below 0.80 yields the cannot-identify
fallback. -/
theorem c4_witness :
    suggest_similar_member_by_first_name "Amira" exAminaMsgs = some "Amina Van Den Berg" ∧
    answer_question_baseline "What are Amira's favorite restaurants?" exAminaMsgs =
      "I couldn't find any member named " ++ "Amira" ++ ", but I did find " ++
      "Amina Van Den Berg" ++ ". Here is what their messages say:\n\n" ++
      core_answer_for "What are Amira's favorite restaurants?" "Amina Van Den Berg"
        (filter_messages_for_member exAminaMsgs "Amina Van Den Berg")
        ((filter_messages_for_member exAminaMsgs "Amina Van Den Berg").getLast?.getD
          ⟨none, none, "", none⟩) ∧
    answer_question_baseline "What are Amira's favorite restaurants?" exZoeMsgs =
      "I couldn't identify which member the question is about." := by
  have hsug : suggest_similar_member_by_first_name "Amira" exAminaMsgs =
      some "Amina Van Den Berg" := by decide
  refine ⟨hsug, ?_, ?_⟩
  · exact ((c4_fuzzy_suggestion_threshold "What are Amira's favorite restaurants?" exAminaMsgs
      "Amira" (by decide) (by decide) (by decide)).2.1 "Amina Van Den Berg" hsug).2
  · exact (c4_fuzzy_suggestion_threshold "What are Amira's favorite restaurants?" exZoeMsgs
      "Amira" (by decide) (by decide) (by decide)).2.2 (by decide)

/-! ### The car-count pattern as a declarative predicate (claim C7) -/

/-- The word-boundary condition before the digit run: the character
just before the run — the last of `pre`, or the ambient previous
character `prev` when `pre` is empty — must not be a word character. -/
def lastBoundary (prev : Option Char) (pre : List Char) : Bool :=
  match pre.getLast? with
  | none => boundaryOK prev
  | some p => !(isWordChar p)

/-- Declarative reading of `\b(\d+)\s+car` somewhere in `l`, when the
character before `l` is `prev`: a decomposition into a prefix, a
nonempty digit run preceded by a word boundary, a nonempty whitespace
run, and the literal `car`. -/
def CarPatternFrom (prev : Option Char) (l : List Char) : Prop :=
  ∃ pre ds ws suf, l = pre ++ ds ++ ws ++ ('c' :: 'a' :: 'r' :: suf) ∧
    ds ≠ [] ∧ (∀ ch ∈ ds, ch.isDigit = true) ∧
    ws ≠ [] ∧ (∀ ch ∈ ws, pyIsSpace ch = true) ∧
    lastBoundary prev pre = true

/-- The amended claim C7 pattern: a digit run at a word boundary,
one or more whitespace characters, then the literal `car`. -/
def CarPattern (l : List Char) : Prop := CarPatternFrom none l

/-- The pattern exactly as claim C7 words it: a single space between
the digits and the prefix `car`. -/
def CarPatternClaim (l : List Char) : Prop :=
  ∃ pre ds suf, l = pre ++ ds ++ (' ' :: 'c' :: 'a' :: 'r' :: suf) ∧
    ds ≠ [] ∧ (∀ ch ∈ ds, ch.isDigit = true) ∧
    lastBoundary none pre = true

theorem space_not_digit {ch : Char} (h : pyIsSpace ch = true) : ch.isDigit = false := by
  unfold pyIsSpace at h
  simp only [Bool.or_eq_true, beq_iff_eq] at h
  rcases h with ((((rfl | rfl) | rfl) | rfl) | rfl) | rfl <;> decide

theorem takeWhile_append_run {p : Char → Bool} (l1 l2 : List Char)
    (h1 : ∀ x ∈ l1, p x = true)
    (h2 : match l2 with | [] => True | y :: _ => p y = false) :
    (l1 ++ l2).takeWhile p = l1 ∧ (l1 ++ l2).dropWhile p = l2 := by
  induction l1 with
  | nil =>
    cases l2 with
    | nil => exact ⟨rfl, rfl⟩
    | cons y ys =>
      simp only [List.nil_append, List.takeWhile_cons, List.dropWhile_cons, h2]
      exact ⟨rfl, rfl⟩
  | cons a l1 ih =>
    have ha : p a = true := h1 a (List.mem_cons_self a l1)
    have hrec := ih (fun x hx => h1 x (List.mem_cons_of_mem _ hx))
    simp only [List.cons_append, List.takeWhile_cons, List.dropWhile_cons, ha, if_true]
    exact ⟨by rw [hrec.1], hrec.2⟩

theorem carPatternFrom_of_match {prev : Option Char} {c : Char} {cs : List Char}
    (hA : (c.isDigit && boundaryOK prev) = true) (hM : carMatchAt (c :: cs) = true) :
    CarPatternFrom prev (c :: cs) := by
  rcases Bool.and_eq_true_iff.mp hA with ⟨hcd, hbd⟩
  unfold carMatchAt at hM
  rcases Bool.and_eq_true_iff.mp hM with ⟨hwsne, hcar⟩
  obtain ⟨suf, hsuf⟩ := List.isPrefixOf_iff_prefix.mp hcar
  refine ⟨[], (c :: cs).takeWhile Char.isDigit,
    ((c :: cs).dropWhile Char.isDigit).takeWhile pyIsSpace, suf, ?_, ?_, ?_, ?_, ?_, ?_⟩
  · have h1 : ((c :: cs).takeWhile Char.isDigit) ++ ((c :: cs).dropWhile Char.isDigit)
        = c :: cs := List.takeWhile_append_dropWhile _ _
    have h2 : (((c :: cs).dropWhile Char.isDigit).takeWhile pyIsSpace) ++
        (((c :: cs).dropWhile Char.isDigit).dropWhile pyIsSpace)
        = (c :: cs).dropWhile Char.isDigit := List.takeWhile_append_dropWhile _ _
    have h3 : ('c' :: 'a' :: 'r' :: suf) = ((c :: cs).dropWhile Char.isDigit).dropWhile pyIsSpace := hsuf
    rw [List.nil_append, List.append_assoc, h3, h2, h1]
  · rw [List.takeWhile_cons, hcd]
    simp
  · exact fun ch hch => List.mem_takeWhile_imp hch
  · rw [Bool.not_eq_eq_eq_not, Bool.not_true] at hwsne
    exact List.isEmpty_eq_false.mp hwsne
  · exact fun ch hch => List.mem_takeWhile_imp hch
  · exact hbd

theorem carPatternFrom_of_tail {prev : Option Char} {c : Char} {cs : List Char}
    (h : CarPatternFrom (some c) cs) : CarPatternFrom prev (c :: cs) := by
  obtain ⟨pre, ds, ws, suf, heq, hds, hdig, hws, hsp, hb⟩ := h
  refine ⟨c :: pre, ds, ws, suf, by rw [heq]; rfl, hds, hdig, hws, hsp, ?_⟩
  cases pre with
  | nil =>
    have hb' : !(isWordChar c) = true := by
      simpa [lastBoundary, boundaryOK] using hb
    simpa [lastBoundary, List.getLast?_singleton] using hb'
  | cons p0 pre' =>
    rcases hq : (p0 :: pre').getLast? with _ | q
    · exact absurd (List.getLast?_eq_none_iff.mp hq) (by simp)
    · have hb' : !(isWordChar q) = true := by
        simpa [lastBoundary, hq] using hb
      simpa [lastBoundary, List.getLast?_cons_cons, hq] using hb'

theorem carPatternFrom_cases {prev : Option Char} {c : Char} {cs : List Char}
    (h : CarPatternFrom prev (c :: cs)) :
    ((c.isDigit && boundaryOK prev) = true ∧ carMatchAt (c :: cs) = true)
    ∨ CarPatternFrom (some c) cs := by
  obtain ⟨pre, ds, ws, suf, heq, hds, hdig, hws, hsp, hb⟩ := h
  cases pre with
  | nil =>
    left
    rcases ds with _ | ⟨d0, ds'⟩
    · exact absurd rfl hds
    rcases ws with _ | ⟨w0, ws'⟩
    · exact absurd rfl hws
    have hl0 : c :: cs = d0 :: (ds' ++ ((w0 :: ws') ++ ('c' :: 'a' :: 'r' :: suf))) := by
      simpa [List.append_assoc] using heq
    injection hl0 with h1 h2
    subst h1
    have hl : c :: cs = (c :: ds') ++ ((w0 :: ws') ++ ('c' :: 'a' :: 'r' :: suf)) := by
      rw [List.cons_append]
      exact congrArg (fun t => c :: t) h2
    have hcd : c.isDigit = true := hdig c (List.mem_cons_self c ds')
    have hbd : boundaryOK prev = true := by
      simpa [lastBoundary] using hb
    have hrun1 := takeWhile_append_run (p := Char.isDigit) (c :: ds')
      ((w0 :: ws') ++ ('c' :: 'a' :: 'r' :: suf)) hdig
      (by
        show Char.isDigit w0 = false
        exact space_not_digit (hsp w0 (List.mem_cons_self w0 ws')))
    have hrun2 := takeWhile_append_run (p := pyIsSpace) (w0 :: ws')
      ('c' :: 'a' :: 'r' :: suf) hsp
      (by
        show pyIsSpace 'c' = false
        decide)
    refine ⟨by rw [hcd, hbd]; rfl, ?_⟩
    unfold carMatchAt
    rw [hl, hrun1.2, hrun2.1, hrun2.2]
    simp only [List.isEmpty_cons, Bool.not_false, Bool.true_and]
    exact List.isPrefixOf_iff_prefix.mpr ⟨suf, rfl⟩
  | cons p0 pre' =>
    right
    have hl0 : c :: cs = p0 :: (pre' ++ (ds ++ (ws ++ ('c' :: 'a' :: 'r' :: suf)))) := by
      simpa [List.append_assoc] using heq
    injection hl0 with h1 h2
    subst h1
    refine ⟨pre', ds, ws, suf, by simpa [List.append_assoc] using h2,
      hds, hdig, hws, hsp, ?_⟩
    cases pre' with
    | nil =>
      have hb' : !(isWordChar c) = true := by
        simpa [lastBoundary, List.getLast?_singleton] using hb
      simpa [lastBoundary, boundaryOK] using hb'
    | cons p1 pre'' =>
      rcases hq : (p1 :: pre'').getLast? with _ | q
      · exact absurd (List.getLast?_eq_none_iff.mp hq) (by simp)
      · have hb' : !(isWordChar q) = true := by
          simpa [lastBoundary, List.getLast?_cons_cons, hq] using hb
        simpa [lastBoundary, hq] using hb'

theorem carCountSearch_iff (l : List Char) : ∀ (prev : Option Char),
    (∃ n, carCountSearch prev l = some n) ↔ CarPatternFrom prev l := by
  induction l with
  | nil =>
    intro prev
    constructor
    · rintro ⟨n, hn⟩
      exact absurd hn (by simp [carCountSearch])
    · rintro ⟨pre, ds, ws, suf, heq, hds, _, hws, _, _⟩
      have hlen := congrArg List.length heq
      simp only [List.length_nil, List.length_append, List.length_cons] at hlen
      omega
  | cons c cs ih =>
    intro prev
    constructor
    · rintro ⟨n, hn⟩
      unfold carCountSearch at hn
      by_cases hA : (c.isDigit && boundaryOK prev) = true
      · rw [if_pos hA] at hn
        by_cases hM : carMatchAt (c :: cs) = true
        · exact carPatternFrom_of_match hA hM
        · rw [if_neg hM] at hn
          exact carPatternFrom_of_tail ((ih (some c)).mp ⟨n, hn⟩)
      · rw [if_neg hA] at hn
        exact carPatternFrom_of_tail ((ih (some c)).mp ⟨n, hn⟩)
    · intro h
      unfold carCountSearch
      rcases carPatternFrom_cases h with ⟨hA, hM⟩ | htail
      · rw [if_pos hA, if_pos hM]
        exact ⟨_, rfl⟩
      · rcases (ih (some c)).mpr htail with ⟨n, hn⟩
        by_cases hA : (c.isDigit && boundaryOK prev) = true
        · rw [if_pos hA]
          by_cases hM : carMatchAt (c :: cs) = true
          · rw [if_pos hM]
            exact ⟨_, rfl⟩
          · rw [if_neg hM]
            exact ⟨n, hn⟩
        · rw [if_neg hA]
          exact ⟨n, hn⟩

/-- Counterexample to claim C7 as stated: the source pattern
`\b(\d+)\s+car` accepts any nonempty whitespace run, not only a single
space — on the text `"2\tcar"` (a tab between the digits and `car`)
extraction succeeds, yet the claim's single-space pattern does not
occur (the text contains no space character at all). -/
theorem c7_counterexample_whitespace :
    extract_car_count_from_text "2\tcar" = some 2 ∧
    ¬ CarPatternClaim (lowerChars ("2\tcar").data) := by
  constructor
  · decide
  · rintro ⟨pre, ds, suf, heq, _, _, _⟩
    have hmem : (' ' : Char) ∈ lowerChars ("2\tcar").data := by
      rw [heq]
      simp
    exact absurd hmem (by decide)

/-- Claim C7 (amended: between the digits and `car` the pattern admits
one or more whitespace characters, not just a single space): car-count
extraction finds a count in a message exactly when the lower-cased
text contains a word-boundary-preceded digit run, then nonempty
whitespace, then the literal `car` (so `cars` also matches). -/
theorem c7_car_pattern_amended (text : String) :
    (∃ n, extract_car_count_from_text text = some n) ↔ CarPattern (lowerChars text.data) := by
  unfold extract_car_count_from_text CarPattern
  exact carCountSearch_iff (lowerChars text.data) none
